import Mathlib

/-!
Verification of the openmensa-parser-berlin repository (Go sources), by a
shallow embedding of its core functions into Lean.  Go strings are modelled
as Lean `String`s (or `List Char` when byte-level buffering matters), Go
slices as `List`s, and fallible or panicking code as `Option`/`Except`-valued
functions.  Each section names the Go function it embeds.
-/

namespace OMPB

/-! ### Identifier catalog: `unique.Sort`, `diff`, and `main`'s reconciliation

The Go `main` calls `unique.Sort(unique.StringSlice{&ids})` (sort in Go's
byte-wise string order, drop duplicates), and `diff(a, b)` (set difference
`b \ a` of two sorted string lists by a linear merge). -/

/-- Go's `<` on strings: byte-wise comparison, which on UTF-8 data is the
lexicographic order on the code-point sequence. -/
abbrev strLt (x y : String) : Prop := x.data < y.data

theorem strLt_trans {x y z : String} (h1 : strLt x y) (h2 : strLt y z) :
    strLt x z := lt_trans h1 h2

theorem strLt_irrefl (x : String) : ¬ strLt x x := lt_irrefl x.data

theorem strLt_trichotomy (x y : String) : strLt x y ∨ x = y ∨ strLt y x := by
  rcases lt_trichotomy x.data y.data with h | h | h
  · exact .inl h
  · exact .inr (.inl (String.ext h))
  · exact .inr (.inr h)

theorem strLt_ne {x y : String} (h : strLt x y) : x ≠ y := by
  intro he
  subst he
  exact strLt_irrefl x h

/-- Model of the library call `unique.Sort` on a string slice: sort in Go's
byte-wise order and remove duplicates.  Implemented as insertion into a
strictly sorted list, which yields exactly the sorted, deduplicated
sequence. -/
def insertUnique (x : String) : List String → List String
  | [] => [x]
  | y :: ys =>
    if strLt x y then x :: y :: ys
    else if x = y then y :: ys
    else y :: insertUnique x ys

/-- `unique.Sort` model: sorted, deduplicated copy of the list. -/
def sortUnique (l : List String) : List String :=
  l.foldr insertUnique []

/-- Embedding of `diff` (the `ids_archive` variant of `main.go`): the linear
merge computing the set difference `b \ a` of two sorted lists.  The Go
`for i < len(a) && j < len(b)` loop runs at most `len a + len b` iterations,
which bounds the fuel; when the fuel is exhausted (never, for the fuel used
by `diffIds`) the remaining part of `b` is appended, matching the Go
post-loop `for ; j < len(b); j++`. -/
def diffGo : Nat → List String → List String → List String
  | 0, _, b => b
  | _ + 1, [], b => b
  | _ + 1, _, [] => []
  | f + 1, x :: a, y :: b =>
    if strLt x y then diffGo f a (y :: b)
    else if strLt y x then y :: diffGo f (x :: a) b
    else diffGo f a b

/-- `diff(a, b)`: set difference `b \ a` of two sorted lists. -/
def diffIds (a b : List String) : List String :=
  diffGo (a.length + b.length) a b

/-- Embedding of the reconciliation sequence in `main`:
`idsCur := sortUnique fresh`, `idsAll := sortUnique (historical ++ fresh)`,
`idsArchive := diff idsCur idsAll`. -/
def reconcile (historical fresh : List String) :
    List String × List String × List String :=
  let idsCur := sortUnique fresh
  let idsAll := sortUnique (historical ++ fresh)
  (idsCur, idsAll, diffIds idsCur idsAll)

/-! ### Safe-name transliteration (`fetchIDs` in the ids.json variant)

The Go loop ranges over the runes of the display name and builds a byte
buffer; we keep the written bytes (all ASCII) in reverse order, so the head
of the accumulator is the most recently written byte `safeName[j-1]`. -/

/-- One iteration of the `for _, c := range name` loop of `fetchIDs`. -/
def safeStep (acc : List Char) (c : Char) : List Char :=
  if ('a' ≤ c ∧ c ≤ 'z') ∨ ('0' ≤ c ∧ c ≤ '9') then c :: acc
  else if 'A' ≤ c ∧ c ≤ 'Z' then Char.ofNat (c.toNat + 32) :: acc
  else if c = 'ä' then 'e' :: 'a' :: acc
  else if c = 'ö' then 'e' :: 'o' :: acc
  else if c = 'ü' then 'e' :: 'u' :: acc
  else if c = 'ß' then 's' :: 's' :: acc
  else if c = 'é' then 'e' :: acc
  else if acc ≠ [] ∧ acc.head? ≠ some '_' then '_' :: acc
  else acc

/-- The buffer contents after the loop (reversed). -/
def safeNameAcc (s : String) : List Char := s.data.foldl safeStep []

/-- `fetchIDs`' safe name: run the loop, strip one trailing underscore
(`if j > 0 && safeName[j-1] == '_' { j-- }`), restore byte order. -/
def safeName (s : String) : String :=
  String.mk ((if (safeNameAcc s).head? = some '_'
    then (safeNameAcc s).tail else safeNameAcc s).reverse)

/-- Characters allowed in a safe name: `[a-z0-9_]`. -/
def safeChar (c : Char) : Prop :=
  ('a' ≤ c ∧ c ≤ 'z') ∨ ('0' ≤ c ∧ c ≤ '9') ∨ c = '_'

/-- No two adjacent underscores. -/
def NoDoubleUnderscore (l : List Char) : Prop :=
  List.Chain' (fun a b => ¬(a = '_' ∧ b = '_')) l

/-- Loop invariant on the reversed buffer: only safe characters, no two
adjacent underscores, and the first written byte (the last of the reversed
accumulator) is not an underscore. -/
def SafeAcc (acc : List Char) : Prop :=
  (∀ c ∈ acc, safeChar c) ∧ NoDoubleUnderscore acc ∧
    acc.getLast? ≠ some '_'

/-! ### Price extraction (`getDay`, regex-scan variant)

`re := regexp.MustCompile` of digits-comma-two-digits; `m :=
re.FindAllString(prices, -1)`; then a switch on `len(m)`.  The scan below
implements Go's leftmost, non-overlapping matching of that pattern over the
rune list: at each position try a maximal digit run followed by a comma and
two digits; on success resume after the match, otherwise advance one rune. -/

/-- One Price of the feed: amount string and role attribute. -/
structure Price where
  price : String
  role : String
deriving DecidableEq, Repr

/-- Try to match digits-comma-two-digits at the head of the list; return
the matched characters and the remainder. -/
def tryPriceMatch (cs : List Char) : Option (List Char × List Char) :=
  match cs.takeWhile (fun c => c.isDigit), cs.dropWhile (fun c => c.isDigit)
    with
  | [], _ => none
  | ds, ',' :: d1 :: d2 :: r =>
    if d1.isDigit ∧ d2.isDigit then some (ds ++ [',', d1, d2], r) else none
  | _, _ => none

/-- Scan for all matches.  Every step consumes at least one character, so
`length + 1` fuel (as supplied by `priceMatches`) always suffices. -/
def scanGo : Nat → List Char → List (List Char)
  | 0, _ => []
  | _ + 1, [] => []
  | f + 1, c :: cs =>
    match tryPriceMatch (c :: cs) with
    | some (m, rest) => m :: scanGo f rest
    | none => scanGo f cs

/-- `re.FindAllString(prices, -1)` for the pattern digit-run, comma, two
digits. -/
def priceMatches (s : String) : List String :=
  (scanGo (s.data.length + 1) s.data).map String.mk

/-- `strings.Replace(s, ",", ".", 1)`: replace the first comma by a dot. -/
def commaToDotGo : List Char → List Char
  | [] => []
  | c :: cs => if c = ',' then '.' :: cs else c :: commaToDotGo cs

/-- String version of `commaToDotGo`. -/
def commaToDot (s : String) : String := String.mk (commaToDotGo s.data)

/-- The `switch len(m)` of `getDay`: 0 matches → no prices; 1 match → one
Price with role "other"; 3 matches → roles student, employee, other in
order; anything else → no prices and a logged anomaly (the Bool). -/
def extractMealPrices (prices : String) : List Price × Bool :=
  if (priceMatches prices).length = 0 then ([], false)
  else if (priceMatches prices).length = 1 then
    ([⟨commaToDot ((priceMatches prices).headD ""), "other"⟩], false)
  else if (priceMatches prices).length = 3 then
    (((priceMatches prices).zip ["student", "employee", "other"]).map
      (fun pr => ⟨commaToDot pr.1, pr.2⟩), false)
  else ([], true)

/-! ### The XML serializer (xml.go)

The encoder output is modelled as a tree of elements (name, attributes,
children) and text nodes; `MarshalXML` methods become functions into this
tree.  A `Category` with no meals encodes nothing, which at the `Day` level
means it is dropped from the children (`List.filterMap`). -/

/-- An XML node. -/
inductive Xml where
  | element (name : String) (attrs : List (String × String))
      (children : List Xml)
  | text (s : String)

/-- The in-memory Meal record. -/
structure Meal where
  name : String
  notes : List String
  prices : List Price

/-- The in-memory Category record. -/
structure Category where
  name : String
  meals : List Meal

/-- The in-memory Day record. -/
structure Day where
  date : String
  categories : List Category

/-- `<price role="…">amount</price>`. -/
def priceToXml (p : Price) : Xml :=
  .element "price" [("role", p.role)] [.text p.price]

/-- Reflection-based encoding of a Meal: name, notes, prices. -/
def mealToXml (m : Meal) : Xml :=
  .element "meal" []
    (.element "name" [] [.text m.name] ::
      (m.notes.map (fun n => Xml.element "note" [] [.text n]) ++
        m.prices.map priceToXml))

/-- `Category.MarshalXML`: nothing at all when there are no meals,
otherwise `<category name="…">` with the encoded meals. -/
def categoryToXml (c : Category) : Option Xml :=
  if c.meals.isEmpty then none
  else some (.element "category" [("name", c.name)] (c.meals.map mealToXml))

/-- The `closed` flag computed by `Day.MarshalXML`'s loop: no category has
a meal. -/
def dayClosed (d : Day) : Bool := d.categories.all (fun c => c.meals.isEmpty)

/-- `Day.MarshalXML`: `<day date="…">` containing either a single
`<closed/>` or the encodings of the categories (empty ones encode to
nothing). -/
def dayToXml (d : Day) : Xml :=
  .element "day" [("date", d.date)]
    (if dayClosed d then [.element "closed" [] []]
     else d.categories.filterMap categoryToXml)

/-- Weekday element names in the `Times.MarshalXML` fixed-order array. -/
def weekdayNames : List String :=
  ["monday", "tuesday", "wednesday", "thursday", "friday", "saturday",
    "sunday"]

/-- `Times.MarshalXML`: empty slot array → `<times></times>`; non-empty
but not length 7 → panic (`none`); otherwise `<times type="opening">` with
the seven weekday elements, `closed="true"` for an empty slot and
`open="…"` otherwise. -/
def timesToXml (openingHours : List String) : Option Xml :=
  if openingHours.length = 0 then some (.element "times" [] [.text ""])
  else if openingHours.length ≠ 7 then none
  else some (.element "times" [("type", "opening")]
    ((List.range 7).map (fun i =>
      Xml.element (weekdayNames.getD i "")
        [if openingHours.getD i "" = "" then ("closed", "true")
         else ("open", openingHours.getD i "")] [.text ""])))

/-! ### The fetcher (`getHttpDoc`, ids_archive variant)

An attempt's outcome is either a network-level error or an HTTP status
with a flag telling whether the body parses as a document.  The run result
records which attempt succeeded, or how the fetch failed; the second
component lists the attempt numbers after which the code slept (attempt
`i` sleeps `i × httpSleepStep = i` seconds). -/

/-- Outcome of one `http.PostForm` attempt. -/
inductive Resp where
  | netErr
  | http (code : Nat) (parseOk : Bool)
deriving DecidableEq, Repr

/-- Result of the whole fetch. -/
inductive FetchRes where
  | doc (attempt : Nat)
  | failStatus (code : Nat)
  | exhausted
  | parsePanic
deriving DecidableEq, Repr

/-- The `for i := 1; i <= httpMaxRetries; i++` loop: fuel counts remaining
iterations, `i` is the attempt number. -/
def fetchGo (resp : Nat → Resp) : Nat → Nat → FetchRes × List Nat
  | 0, _ => (.exhausted, [])
  | f + 1, i =>
    match resp i with
    | .netErr =>
      ((fetchGo resp f (i + 1)).1, i :: (fetchGo resp f (i + 1)).2)
    | .http 200 true => (.doc i, [])
    | .http 200 false => (.parsePanic, [])
    | .http code _ =>
      if code = 509 then
        ((fetchGo resp f (i + 1)).1, i :: (fetchGo resp f (i + 1)).2)
      else (.failStatus code, [])

/-- `getHttpDoc` with `httpMaxRetries = 10`. -/
def getHttpDocRun (resp : Nat → Resp) : FetchRes × List Nat :=
  fetchGo resp 10 1

/-- The retried outcomes: network error or status 509. -/
def Retryable (r : Resp) : Prop := r = .netErr ∨ ∃ b, r = Resp.http 509 b

/-! ### Opening-hours extraction (`getMetadata`, ids_archive variant)

Each sibling block's regex match result is either `none` (no match, which
breaks the scan) or the four captured strings; `dayEnd = ""` models the
unmatched optional range capture. -/

/-- The captures of one matched opening-hours block. -/
structure OHMatch where
  dayStart : String
  dayEnd : String
  hoursStart : String
  hoursEnd : String

/-- `days := []string{"Mo", "Di", "Mi", "Do", "Fr", "Sa", "So"}`. -/
def days7 : List String := ["Mo", "Di", "Mi", "Do", "Fr", "Sa", "So"]

/-- The `for j, day := range days` scan: index of the first matching
abbreviation, 0 (the zero value of the Go variable) when none matches. -/
def resolveDay (s : String) : Nat :=
  (days7.findIdx? (fun d => d = s)).getD 0

/-- `for j := dayStart; j <= dayEnd; j++ { openingHours[j] = … }`. -/
def setRange (oh : List String) (ds de : Nat) (v : String) : List String :=
  oh.enum.map (fun p => if ds ≤ p.1 ∧ p.1 ≤ de then v else p.2)

/-- The bounded `for i := 0; i < 7; i++` scan over sibling blocks: running
past the last block or hitting a non-matching block stops the scan; a
matched block with resolved `dayEnd < dayStart` panics (`none`). -/
def ohGo : Nat → List (Option OHMatch) → List String → Option (List String)
  | 0, _, oh => some oh
  | _ + 1, [], oh => some oh
  | _ + 1, none :: _, oh => some oh
  | f + 1, some m :: rest, oh =>
    if (if m.dayEnd = "" then resolveDay m.dayStart
        else resolveDay m.dayEnd) < resolveDay m.dayStart then none
    else ohGo f rest
      (setRange oh (resolveDay m.dayStart)
        (if m.dayEnd = "" then resolveDay m.dayStart
         else resolveDay m.dayEnd)
        (m.hoursStart ++ "-" ++ m.hoursEnd))

/-- The whole scan, starting from seven empty slots. -/
def expandOpeningHours (blocks : List (Option OHMatch)) :
    Option (List String) :=
  ohGo 7 blocks (List.replicate 7 "")

/-! ### Identifier persistence (`saveIds`)

`saveIds` creates (truncates) the file, wraps it in a `bufio.Writer`
(default buffer size 4096 bytes), writes one `Fprintln` per identifier
with a newline-containing identifier aborting before that identifier is
written, and flushes only on success.  `bufio.Writer.Write` appends to the
buffer while the data fits, writes directly to the file for a large write
on an empty buffer, and otherwise tops up the buffer, flushes it, and
retries — so each recursion empties the buffer and the recursion depth is
at most 2, well below the supplied fuel. -/

/-- `bufio`'s default buffer size. -/
def bufSize : Nat := 4096

/-- File contents plus buffered-but-unflushed bytes. -/
structure BufWriter where
  file : List Char
  buf : List Char

/-- `bufio.Writer.Write`. -/
def bwWriteGo : Nat → BufWriter → List Char → BufWriter
  | 0, w, _ => w
  | f + 1, w, p =>
    if p.length ≤ bufSize - w.buf.length then ⟨w.file, w.buf ++ p⟩
    else if w.buf.length = 0 then ⟨w.file ++ p, w.buf⟩
    else
      bwWriteGo f
        ⟨w.file ++ w.buf ++ p.take (bufSize - w.buf.length), []⟩
        (p.drop (bufSize - w.buf.length))

/-- `bufio.Writer.Write` with always-sufficient fuel. -/
def bwWrite (w : BufWriter) (p : List Char) : BufWriter :=
  bwWriteGo (p.length + 2) w p

/-- `bufio.Writer.Flush`. -/
def bwFlush (w : BufWriter) : BufWriter := ⟨w.file ++ w.buf, []⟩

/-- The `for _, id := range *ids` loop of `saveIds`, returning success and
the bytes visible in the file when the function returns. -/
def saveIdsGo : List (List Char) → BufWriter → Bool × List Char
  | [], w => (true, (bwFlush w).file)
  | idc :: rest, w =>
    if '\n' ∈ idc then (false, w.file)
    else saveIdsGo rest (bwWrite w (idc ++ ['\n']))

/-- `saveIds`: `os.Create` truncates whatever the file held before, so the
previous contents do not influence the result. -/
def saveIds (_oldContents : List Char) (ids : List (List Char)) :
    Bool × List Char :=
  saveIdsGo ids ⟨[], []⟩

/-- Writer state after the first `n` loop iterations of `saveIds` (used to
describe the file contents visible when the loop aborts). -/
def writeAll (w : BufWriter) (ids : List (List Char)) : BufWriter :=
  ids.foldl (fun w idc => bwWrite w (idc ++ ['\n'])) w

/-! ### Theorems for the identifier catalog -/

theorem insertUnique_mem (x y : String) (l : List String) :
    y ∈ insertUnique x l ↔ y = x ∨ y ∈ l := by
  induction l with
  | nil => simp [insertUnique]
  | cons z zs ih =>
    simp only [insertUnique]
    split
    · simp [List.mem_cons]
    · split
      · rename_i hxz
        subst hxz
        constructor
        · intro h; exact .inr h
        · rintro (rfl | h) <;> simp_all
      · simp only [List.mem_cons, ih]
        tauto

theorem insertUnique_sorted (x : String) (l : List String)
    (h : List.Sorted strLt l) :
    List.Sorted strLt (insertUnique x l) := by
  induction l with
  | nil => simp [insertUnique]
  | cons z zs ih =>
    rw [List.sorted_cons] at h
    obtain ⟨hz, hzs⟩ := h
    simp only [insertUnique]
    split
    · rename_i hlt
      rw [List.sorted_cons]
      refine ⟨?_, List.sorted_cons.mpr ⟨hz, hzs⟩⟩
      intro b hb
      rcases List.mem_cons.mp hb with rfl | hb
      · exact hlt
      · exact strLt_trans hlt (hz b hb)
    · split
      · exact List.sorted_cons.mpr ⟨hz, hzs⟩
      · rename_i hnlt hne
        have hzx : strLt z x := by
          rcases strLt_trichotomy x z with h1 | h1 | h1
          · exact absurd h1 hnlt
          · exact absurd h1 hne
          · exact h1
        rw [List.sorted_cons]
        refine ⟨?_, ih hzs⟩
        intro b hb
        rcases (insertUnique_mem x b zs).mp hb with rfl | hb
        · exact hzx
        · exact hz b hb

theorem sortUnique_sorted (l : List String) :
    List.Sorted strLt (sortUnique l) := by
  induction l with
  | nil => simp [sortUnique]
  | cons x xs ih => exact insertUnique_sorted x _ ih

theorem sortUnique_mem (l : List String) (y : String) :
    y ∈ sortUnique l ↔ y ∈ l := by
  induction l with
  | nil => simp [sortUnique]
  | cons x xs ih =>
    simp only [sortUnique, List.foldr_cons, insertUnique_mem, List.mem_cons]
    rw [sortUnique] at ih
    rw [ih]

theorem diffGo_eq_filter :
    ∀ (f : Nat) (a b : List String), a.length + b.length ≤ f →
    List.Sorted strLt a → List.Sorted strLt b →
    diffGo f a b = b.filter (fun y => decide (y ∉ a)) := by
  intro f
  induction f with
  | zero =>
    intro a b hlen _ _
    have ha : a = [] := by
      cases a <;> simp_all
    have hb : b = [] := by
      cases b <;> (try cases a) <;> simp_all
    subst ha; subst hb
    simp [diffGo]
  | succ f ih =>
    intro a b hlen hsa hsb
    match a, b with
    | [], b => simp [diffGo]
    | x :: as, [] => simp [diffGo]
    | x :: as, y :: bs =>
      rw [List.sorted_cons] at hsa hsb
      obtain ⟨hxas, hsas⟩ := hsa
      obtain ⟨hybs, hsbs⟩ := hsb
      simp only [diffGo]
      rcases strLt_trichotomy x y with hxy | hxy | hxy
      · rw [if_pos hxy]
        rw [ih as (y :: bs) (by simp at hlen ⊢; omega) hsas
          (List.sorted_cons.mpr ⟨hybs, hsbs⟩)]
        apply List.filter_congr
        intro z hz
        have hzx : z ≠ x := by
          rcases List.mem_cons.mp hz with rfl | hz'
          · exact (strLt_ne hxy).symm
          · exact (strLt_ne (strLt_trans hxy (hybs z hz'))).symm
        simp [hzx]
      · rw [if_neg (by subst hxy; exact strLt_irrefl x),
          if_neg (by subst hxy; exact strLt_irrefl x)]
        subst hxy
        rw [ih as bs (by simp at hlen ⊢; omega) hsas hsbs]
        have hxmem : ¬ (x ∉ x :: as) := by simp
        rw [List.filter_cons, decide_eq_false hxmem]
        simp only [Bool.false_eq_true, if_false]
        apply Eq.symm
        apply List.filter_congr
        intro z hz
        have hzx : z ≠ x := (strLt_ne (hybs z hz)).symm
        simp [hzx]
      · rw [if_neg (fun h => strLt_irrefl x (strLt_trans h hxy)), if_pos hxy]
        rw [ih (x :: as) bs (by simp at hlen ⊢; omega)
          (List.sorted_cons.mpr ⟨hxas, hsas⟩) hsbs]
        have hynot : y ∉ x :: as := by
          intro hmem
          rcases List.mem_cons.mp hmem with rfl | hmem'
          · exact strLt_irrefl y hxy
          · exact strLt_irrefl y (strLt_trans hxy (hxas y hmem'))
        rw [List.filter_cons]
        simp [hynot]

theorem diffIds_eq_filter (a b : List String)
    (hsa : List.Sorted strLt a) (hsb : List.Sorted strLt b) :
    diffIds a b = b.filter (fun y => decide (y ∉ a)) :=
  diffGo_eq_filter (a.length + b.length) a b le_rfl hsa hsb

/-- C1.  Identifier reconciliation: `current` is the fresh fetch result
deduplicated and sorted, `newAll` is the deduplicated sorted union of the
historical list and the fresh result, and `archiveDelta`, computed by the
linear merge `diff(current, newAll)`, is exactly the subsequence of `newAll`
whose elements are absent from `current` (equivalently, the identifiers
present historically but absent from the fresh fetch); on
`historical = ["101","102"]` and `fresh = ["102","103"]` the results are
`(["102","103"], ["101","102","103"], ["101"])`. -/
theorem reconcile_spec :
    (∀ hist fresh : List String,
      List.Sorted strLt (reconcile hist fresh).1 ∧
      List.Sorted strLt (reconcile hist fresh).2.1 ∧
      (∀ x, x ∈ (reconcile hist fresh).1 ↔ x ∈ fresh) ∧
      (∀ x, x ∈ (reconcile hist fresh).2.1 ↔ x ∈ hist ∨ x ∈ fresh) ∧
      (reconcile hist fresh).2.2 =
        (reconcile hist fresh).2.1.filter
          (fun y => decide (y ∉ (reconcile hist fresh).1)) ∧
      (∀ x, x ∈ (reconcile hist fresh).2.2 ↔ x ∈ hist ∧ x ∉ fresh)) ∧
    reconcile ["101", "102"] ["102", "103"] =
      (["102", "103"], ["101", "102", "103"], ["101"]) := by
  constructor
  · intro hist fresh
    have hcur : (reconcile hist fresh).1 = sortUnique fresh := rfl
    have hall : (reconcile hist fresh).2.1 = sortUnique (hist ++ fresh) := rfl
    have hdel : (reconcile hist fresh).2.2 =
        diffIds (sortUnique fresh) (sortUnique (hist ++ fresh)) := rfl
    have hfil := diffIds_eq_filter (sortUnique fresh)
      (sortUnique (hist ++ fresh)) (sortUnique_sorted fresh)
      (sortUnique_sorted (hist ++ fresh))
    refine ⟨sortUnique_sorted fresh, sortUnique_sorted (hist ++ fresh),
      fun x => sortUnique_mem fresh x,
      fun x => by rw [hall, sortUnique_mem, List.mem_append],
      by rw [hdel, hcur, hall, hfil],
      ?_⟩
    intro x
    rw [hdel, hfil, List.mem_filter]
    simp only [sortUnique_mem, List.mem_append, decide_eq_true_eq]
    tauto
  · decide

/-- C8 counterexample: the persisted `current` list is NOT sorted by numeric
value — `unique.Sort` sorts byte-lexicographically, so on the fetch result
`["321", "1000"]` the persisted order puts `"1000"` before `"321"`. -/
theorem sortUnique_not_numeric :
    sortUnique ["321", "1000"] = ["1000", "321"] ∧
    sortUnique ["321", "1000"] ≠ ["321", "1000"] := by
  decide

/-- C8 (amended).  The persisted `current` sequence is deduplicated and
sorted lexicographically (Go byte-wise string order, which differs from
numeric order on numeric strings of different lengths): it is strictly
sorted under byte-wise `<`, contains exactly the fetched identifiers, and
on the fetch result `["321", "1000"]` yields `["1000", "321"]`. -/
theorem sortUnique_lex_sorted :
    (∀ fresh : List String,
      List.Sorted strLt (sortUnique fresh) ∧
      (∀ x, x ∈ sortUnique fresh ↔ x ∈ fresh)) ∧
    sortUnique ["321", "1000"] = ["1000", "321"] := by
  refine ⟨fun fresh => ⟨sortUnique_sorted fresh, sortUnique_mem fresh⟩, ?_⟩
  decide

theorem char_le_iff {a b : Char} : a ≤ b ↔ a.toNat ≤ b.toNat := by
  rw [Char.le_def, UInt32.le_def, BitVec.le_def]
  exact Iff.rfl

theorem char_ne_of_toNat_ne {c d : Char} (h : c.toNat ≠ d.toNat) : c ≠ d :=
  fun he => h (he ▸ rfl)

theorem lower_ofNat_facts : ∀ n : Nat, n < 91 → (65 ≤ n →
    ('a' ≤ Char.ofNat (n + 32) ∧ Char.ofNat (n + 32) ≤ 'z') ∧
    Char.ofNat (n + 32) ≠ '_') := by decide

theorem safeAcc_nil : SafeAcc [] := by
  refine ⟨by simp, ?_, by simp⟩
  simp [NoDoubleUnderscore]

theorem safeAcc_push {acc : List Char} {d : Char} (hd : safeChar d)
    (hne : d ≠ '_') (h : SafeAcc acc) : SafeAcc (d :: acc) := by
  obtain ⟨hv, hc, hl⟩ := h
  refine ⟨?_, ?_, ?_⟩
  · intro c hc'
    rcases List.mem_cons.mp hc' with rfl | hc'
    · exact hd
    · exact hv c hc'
  · rw [NoDoubleUnderscore, List.chain'_cons']
    exact ⟨fun b _ hab => hne hab.1, hc⟩
  · cases acc with
    | nil => simpa using hne
    | cons e es => rw [List.getLast?_cons_cons]; exact hl

theorem safeAcc_pushUnderscore {acc : List Char} (hne : acc ≠ [])
    (hh : acc.head? ≠ some '_') (h : SafeAcc acc) : SafeAcc ('_' :: acc) := by
  obtain ⟨hv, hc, hl⟩ := h
  refine ⟨?_, ?_, ?_⟩
  · intro c hc'
    rcases List.mem_cons.mp hc' with rfl | hc'
    · exact .inr (.inr rfl)
    · exact hv c hc'
  · rw [NoDoubleUnderscore, List.chain'_cons']
    refine ⟨fun b hb hab => hh ?_, hc⟩
    rw [hb, hab.2]
  · cases acc with
    | nil => exact absurd rfl hne
    | cons e es => rw [List.getLast?_cons_cons]; exact hl

theorem safeStep_inv (acc : List Char) (c : Char) (h : SafeAcc acc) :
    SafeAcc (safeStep acc c) := by
  unfold safeStep
  split
  · rename_i h1
    refine safeAcc_push ?_ ?_ h
    · rcases h1 with h1 | h1
      · exact .inl h1
      · exact .inr (.inl h1)
    · rcases h1 with ⟨hlo, _⟩ | ⟨_, hhi⟩
      · rw [char_le_iff] at hlo
        have hlo' : 97 ≤ c.toNat := hlo
        refine char_ne_of_toNat_ne ?_
        intro he
        rw [show ('_').toNat = 95 from rfl] at he
        omega
      · rw [char_le_iff] at hhi
        have hhi' : c.toNat ≤ 57 := hhi
        refine char_ne_of_toNat_ne ?_
        intro he
        rw [show ('_').toNat = 95 from rfl] at he
        omega
  · split
    · rename_i h2
      obtain ⟨hlo, hhi⟩ := h2
      rw [char_le_iff] at hlo hhi
      have hlo' : 65 ≤ c.toNat := hlo
      have hhi' : c.toNat ≤ 90 := hhi
      obtain ⟨hrange, hneu⟩ :=
        lower_ofNat_facts c.toNat (by omega) (by omega)
      exact safeAcc_push (.inl hrange) hneu h
    · split
      · exact safeAcc_push (.inl (by decide)) (by decide)
          (safeAcc_push (.inl (by decide)) (by decide) h)
      · split
        · exact safeAcc_push (.inl (by decide)) (by decide)
            (safeAcc_push (.inl (by decide)) (by decide) h)
        · split
          · exact safeAcc_push (.inl (by decide)) (by decide)
              (safeAcc_push (.inl (by decide)) (by decide) h)
          · split
            · exact safeAcc_push (.inl (by decide)) (by decide)
                (safeAcc_push (.inl (by decide)) (by decide) h)
            · split
              · exact safeAcc_push (.inl (by decide)) (by decide) h
              · split
                · rename_i h8
                  exact safeAcc_pushUnderscore h8.1 h8.2 h
                · exact h

theorem foldl_safeStep_inv (l : List Char) (acc : List Char)
    (h : SafeAcc acc) : SafeAcc (l.foldl safeStep acc) := by
  induction l generalizing acc with
  | nil => exact h
  | cons c cs ih => exact ih (safeStep acc c) (safeStep_inv acc c h)

theorem safeNameAcc_inv (s : String) : SafeAcc (safeNameAcc s) :=
  foldl_safeStep_inv s.data [] safeAcc_nil

/-- Properties of the stripped, reversed accumulator. -/
theorem stripped_props (acc : List Char) (h : SafeAcc acc) :
    (∀ c ∈ (if acc.head? = some '_' then acc.tail else acc).reverse,
      safeChar c) ∧
    NoDoubleUnderscore (if acc.head? = some '_' then acc.tail
      else acc).reverse ∧
    (if acc.head? = some '_' then acc.tail else acc).reverse.head? ≠
      some '_' ∧
    (if acc.head? = some '_' then acc.tail else acc).reverse.getLast? ≠
      some '_' := by
  obtain ⟨hv, hc, hl⟩ := h
  cases acc with
  | nil => simp [NoDoubleUnderscore]
  | cons e t =>
    by_cases he : e = '_'
    · subst he
      rw [if_pos (by simp)]
      have htv : ∀ c ∈ t, safeChar c := fun c hct => hv c (.tail _ hct)
      have htc : NoDoubleUnderscore t :=
        (List.chain'_cons'.mp hc).2
      have hthead : t.head? ≠ some '_' := by
        intro hsome
        exact (List.chain'_cons'.mp hc).1 '_' (Option.mem_def.mpr hsome)
          ⟨rfl, rfl⟩
      have htlast : t.getLast? ≠ some '_' := by
        cases t with
        | nil => simp
        | cons f fs => rw [← List.getLast?_cons_cons (a := '_')]; exact hl
      refine ⟨?_, ?_, ?_, ?_⟩
      · intro c hct
        exact htv c (List.mem_reverse.mp hct)
      · rw [NoDoubleUnderscore, List.chain'_reverse]
        exact htc.imp (fun a b hab hba => hab ⟨hba.2, hba.1⟩)
      · rw [List.head?_reverse]; simpa using htlast
      · rw [List.getLast?_reverse]; simpa using hthead
    · rw [if_neg (by simpa using he)]
      refine ⟨?_, ?_, ?_, ?_⟩
      · intro c hct
        exact hv c (List.mem_reverse.mp hct)
      · rw [NoDoubleUnderscore, List.chain'_reverse]
        exact hc.imp (fun a b hab hba => hab ⟨hba.2, hba.1⟩)
      · rw [List.head?_reverse]; simpa using hl
      · rw [List.getLast?_reverse]; simpa using he

/-- Properties of the final safe name. -/
theorem safeName_stripped_inv (s : String) :
    (∀ c ∈ (safeName s).data, safeChar c) ∧
    NoDoubleUnderscore (safeName s).data ∧
    (safeName s).data.head? ≠ some '_' ∧
    (safeName s).data.getLast? ≠ some '_' :=
  stripped_props (safeNameAcc s) (safeNameAcc_inv s)

/-- C5.  Safe-name transliteration: every produced character is in
`[a-z0-9_]`, underscores never occur doubled (each run of unmapped
characters contributes at most one), the name never ends in an underscore,
the mapping is deterministic (a pure function of the input), uppercase
ASCII is lowercased, digits and lowercase pass through, and the umlaut /
eszett / accent mappings hold; `"Mensa Süd (Kino)"` maps to
`"mensa_sued_kino"`. -/
theorem safeName_spec :
    (∀ s : String,
      (∀ c ∈ (safeName s).data, safeChar c) ∧
      NoDoubleUnderscore (safeName s).data ∧
      (safeName s).data.getLast? ≠ some '_') ∧
    (∀ s t : String, s = t → safeName s = safeName t) ∧
    safeName "Mensa Süd (Kino)" = "mensa_sued_kino" ∧
    safeName "ä" = "ae" ∧ safeName "ö" = "oe" ∧ safeName "ü" = "ue" ∧
    safeName "ß" = "ss" ∧ safeName "é" = "e" ∧
    safeName "ABZ09xy" = "abz09xy" := by
  refine ⟨?_, ?_, ?_, ?_, ?_, ?_, ?_, ?_, ?_⟩
  · intro s
    obtain ⟨h1, h2, _, h4⟩ := safeName_stripped_inv s
    exact ⟨h1, h2, h4⟩
  · intro s t h; rw [h]
  all_goals decide

/-- C5 witness: the safe-character property applied at `"Test"`. -/
theorem safeName_spec_witness : safeChar 't' :=
  (safeName_spec.1 "Test").1 't' (by decide)

/-- C10.  A safe name never begins with an underscore: the underscore
branch only fires once at least one byte has been written, so a leading run
of unmapped characters is dropped entirely; combined with the
trailing-underscore strip, every non-empty safe name starts and ends with a
character in `[a-z0-9]`. -/
theorem safeName_no_leading_underscore :
    (∀ s : String, (safeName s).data.head? ≠ some '_') ∧
    (∀ s : String, ∀ c, (safeName s).data.head? = some c →
      (('a' ≤ c ∧ c ≤ 'z') ∨ ('0' ≤ c ∧ c ≤ '9'))) ∧
    (∀ s : String, ∀ c, (safeName s).data.getLast? = some c →
      (('a' ≤ c ∧ c ≤ 'z') ∨ ('0' ≤ c ∧ c ≤ '9'))) ∧
    safeName "+++Mensa" = "mensa" ∧ safeName "+++" = "" := by
  refine ⟨?_, ?_, ?_, ?_, ?_⟩
  · intro s
    exact (safeName_stripped_inv s).2.2.1
  · intro s c hc
    obtain ⟨h1, _, h3, _⟩ := safeName_stripped_inv s
    have hs : safeChar c :=
      h1 c (List.mem_of_mem_head? (Option.mem_def.mpr hc))
    rcases hs with hs | hs | hs
    · exact .inl hs
    · exact .inr hs
    · exact absurd (by rw [hc, hs]) h3
  · intro s c hc
    obtain ⟨h1, _, _, h4⟩ := safeName_stripped_inv s
    have hs : safeChar c :=
      h1 c (List.mem_of_mem_getLast? (Option.mem_def.mpr hc))
    rcases hs with hs | hs | hs
    · exact .inl hs
    · exact .inr hs
    · exact absurd (by rw [hc, hs]) h4
  all_goals decide

/-- C10 witness: the head-character property applied at `"Mensa"`. -/
theorem safeName_no_leading_underscore_witness :
    ('a' ≤ 'm' ∧ 'm' ≤ 'z') ∨ ('0' ≤ 'm' ∧ 'm' ≤ '9') :=
  safeName_no_leading_underscore.2.1 "Mensa" 'm' (by decide)

/-! ### Theorems for price extraction -/

/-- C2.  Price extraction (regex-scan mode): zero matches of the
digits-comma-two-digits pattern give no prices and no anomaly; exactly one
match gives a single Price with role "other"; exactly three matches give
Prices tagged student, employee, other in positional order; any other
count gives no prices plus a logged anomaly; and every stored price string
is the match with its first comma replaced by a dot (`"3,50"` is stored
as `"3.50"`). -/
theorem extractMealPrices_spec :
    (∀ s : String,
      (priceMatches s = [] → extractMealPrices s = ([], false)) ∧
      (∀ x, priceMatches s = [x] →
        extractMealPrices s = ([⟨commaToDot x, "other"⟩], false)) ∧
      (∀ x y z, priceMatches s = [x, y, z] →
        extractMealPrices s = ([⟨commaToDot x, "student"⟩,
          ⟨commaToDot y, "employee"⟩, ⟨commaToDot z, "other"⟩], false)) ∧
      ((priceMatches s).length ≠ 0 → (priceMatches s).length ≠ 1 →
        (priceMatches s).length ≠ 3 → extractMealPrices s = ([], true))) ∧
    extractMealPrices "3,50" = ([⟨"3.50", "other"⟩], false) ∧
    extractMealPrices "2,10 / 3,20 / 4,00" =
      ([⟨"2.10", "student"⟩, ⟨"3.20", "employee"⟩,
        ⟨"4.00", "other"⟩], false) ∧
    extractMealPrices "2,10 / 3,20" = ([], true) ∧
    extractMealPrices "Salatdressing" = ([], false) := by
  refine ⟨?_, by decide, by decide, by decide, by decide⟩
  intro s
  refine ⟨?_, ?_, ?_, ?_⟩
  · intro h
    unfold extractMealPrices
    rw [h]
    rfl
  · intro x h
    unfold extractMealPrices
    rw [h]
    rfl
  · intro x y z h
    unfold extractMealPrices
    rw [h]
    rfl
  · intro h0 h1 h3
    unfold extractMealPrices
    rw [if_neg h0, if_neg h1, if_neg h3]

/-- C2 witness: one match, applied at the concrete input `"1,23"`. -/
theorem extractMealPrices_spec_witness :
    extractMealPrices "1,23" = ([⟨"1.23", "other"⟩], false) :=
  (extractMealPrices_spec.1 "1,23").2.1 "1,23" (by decide)

/-! ### Theorems for the XML serializer -/

theorem filterMap_categoryToXml (l : List Category) :
    l.filterMap categoryToXml =
      (l.filter (fun c => !c.meals.isEmpty)).map
        (fun c => Xml.element "category" [("name", c.name)]
          (c.meals.map mealToXml)) := by
  induction l with
  | nil => rfl
  | cons c cs ih =>
    rw [List.filterMap_cons, List.filter_cons]
    by_cases h : c.meals.isEmpty
    · simp [categoryToXml, h, ih]
    · simp [categoryToXml, h, ih]

/-- C3.  Day serialization: the `<day date="…">` element contains exactly
one `<closed/>` child (and hence no `<category>` children) if and only if
every contained Category has zero Meals — including the case of zero
Categories; otherwise the children are exactly the renderings of the
Categories with non-empty Meals, each Category with zero Meals being
omitted entirely. -/
theorem dayToXml_spec (d : Day) :
    ∃ cs, dayToXml d = .element "day" [("date", d.date)] cs ∧
      ((cs = [.element "closed" [] []]) ↔
        ∀ c ∈ d.categories, c.meals = []) ∧
      ((∃ c ∈ d.categories, c.meals ≠ []) →
        cs = (d.categories.filter (fun c => !c.meals.isEmpty)).map
          (fun c => Xml.element "category" [("name", c.name)]
            (c.meals.map mealToXml))) := by
  cases hcl : dayClosed d with
  | true =>
    have hall : ∀ c ∈ d.categories, c.meals = [] := by
      intro c hc
      have h2 := List.all_eq_true.mp hcl c hc
      simpa using h2
    refine ⟨[.element "closed" [] []], ?_, ?_, ?_⟩
    · unfold dayToXml
      rw [hcl]
      rfl
    · exact ⟨fun _ => hall, fun _ => rfl⟩
    · rintro ⟨c, hc, hne⟩
      exact absurd (hall c hc) hne
  | false =>
    refine ⟨d.categories.filterMap categoryToXml, ?_, ?_, ?_⟩
    · unfold dayToXml
      rw [hcl]
      rfl
    · constructor
      · intro hcs
        exfalso
        have hex : ∃ c ∈ d.categories, ¬ c.meals.isEmpty := by
          have h2 := hcl
          rw [dayClosed, List.all_eq_false] at h2
          obtain ⟨c, hc, hc2⟩ := h2
          exact ⟨c, hc, by simpa using hc2⟩
        obtain ⟨c, hc, hne⟩ := hex
        have hmem : Xml.element "category" [("name", c.name)]
            (c.meals.map mealToXml) ∈ d.categories.filterMap categoryToXml :=
          List.mem_filterMap.mpr ⟨c, hc, by simp [categoryToXml, hne]⟩
        rw [hcs, List.mem_singleton] at hmem
        injection hmem with hname _ _
        exact absurd hname (by decide)
      · intro hall
        have htrue : dayClosed d = true :=
          List.all_eq_true.mpr (fun c hc => by simp [hall c hc])
        rw [hcl] at htrue
        exact (Bool.false_ne_true htrue).elim
    · intro _
      exact filterMap_categoryToXml d.categories

/-- C3 witness: a day with one empty and one non-empty category, applied
concretely — the empty category is suppressed, no `<closed/>` appears. -/
theorem dayToXml_spec_witness :
    dayToXml ⟨"2024-01-01",
        [⟨"Salate", []⟩, ⟨"Aktion", [⟨"Pasta", [], []⟩]⟩]⟩ =
      Xml.element "day" [("date", "2024-01-01")]
        [Xml.element "category" [("name", "Aktion")]
          [mealToXml ⟨"Pasta", [], []⟩]] := by
  obtain ⟨cs, h1, _, h3⟩ := dayToXml_spec
    ⟨"2024-01-01", [⟨"Salate", []⟩, ⟨"Aktion", [⟨"Pasta", [], []⟩]⟩]⟩
  rw [h1, h3 ⟨⟨"Aktion", [⟨"Pasta", [], []⟩]⟩, by simp, by simp⟩]
  rfl

/-- C7.  Times serialization: a Times with exactly 7 slots renders the
seven weekday elements in the fixed order monday..sunday, each carrying
`closed="true"` when its slot is empty and `open="…"` (the slot string)
otherwise; a non-empty slot array of any other length is a panic (`none`),
never a silently coerced output. -/
theorem timesToXml_spec :
    (∀ oh : List String, oh.length = 7 →
      timesToXml oh = some (.element "times" [("type", "opening")]
        (List.zipWith (fun n s => Xml.element n
            [if s = "" then ("closed", "true") else ("open", s)]
            [.text ""])
          weekdayNames oh))) ∧
    (∀ oh : List String, oh ≠ [] → oh.length ≠ 7 →
      timesToXml oh = none) := by
  constructor
  · intro oh h
    match oh, h with
    | [a, b, c, d, e, f, g], _ => rfl
  · intro oh h1 h2
    unfold timesToXml
    rw [if_neg (fun hh => h1 (List.length_eq_zero.mp hh)), if_pos h2]

/-- C7 witness: the 7-slot case at a concrete Times value and the panic
case at a 1-slot value. -/
theorem timesToXml_spec_witness :
    timesToXml ["08:00-16:00", "", "", "", "", "", ""] =
      some (Xml.element "times" [("type", "opening")]
        [Xml.element "monday" [("open", "08:00-16:00")] [.text ""],
         Xml.element "tuesday" [("closed", "true")] [.text ""],
         Xml.element "wednesday" [("closed", "true")] [.text ""],
         Xml.element "thursday" [("closed", "true")] [.text ""],
         Xml.element "friday" [("closed", "true")] [.text ""],
         Xml.element "saturday" [("closed", "true")] [.text ""],
         Xml.element "sunday" [("closed", "true")] [.text ""]]) ∧
    timesToXml ["x"] = none := by
  constructor
  · rw [timesToXml_spec.1 ["08:00-16:00", "", "", "", "", "", ""] rfl]
    rfl
  · exact timesToXml_spec.2 ["x"] (by simp) (by simp)

/-! ### Theorems for the fetcher -/

theorem fetchGo_step_doc (resp : Nat → Resp) (f i : Nat)
    (h : resp i = .http 200 true) :
    fetchGo resp (f + 1) i = (.doc i, []) := by
  simp [fetchGo, h]

theorem fetchGo_step_panic (resp : Nat → Resp) (f i : Nat)
    (h : resp i = .http 200 false) :
    fetchGo resp (f + 1) i = (.parsePanic, []) := by
  simp [fetchGo, h]

theorem fetchGo_step_fail (resp : Nat → Resp) (f i code : Nat) (b : Bool)
    (h : resp i = .http code b) (h200 : code ≠ 200) (h509 : code ≠ 509) :
    fetchGo resp (f + 1) i = (.failStatus code, []) := by
  simp only [fetchGo, h]
  split
  · rename_i heq
    exact Resp.noConfusion heq
  · rename_i heq
    injection heq with h1 h2
    exact absurd h1 h200
  · rename_i heq
    injection heq with h1 h2
    exact absurd h1 h200
  · rename_i s c p hc1 hc2 heq
    injection heq with h1 h2
    subst h1
    rw [if_neg h509]

theorem fetchGo_step_retry (resp : Nat → Resp) (f i : Nat)
    (h : Retryable (resp i)) :
    fetchGo resp (f + 1) i =
      ((fetchGo resp f (i + 1)).1, i :: (fetchGo resp f (i + 1)).2) := by
  rcases h with h | ⟨b, h⟩
  · simp [fetchGo, h]
  · simp [fetchGo, h]

theorem fetchGo_retryable_prefix :
    ∀ (n f i : Nat) (resp : Nat → Resp),
      (∀ m, m < n → Retryable (resp (i + m))) →
      fetchGo resp (f + n) i =
        ((fetchGo resp f (i + n)).1,
          List.range' i n ++ (fetchGo resp f (i + n)).2) := by
  intro n
  induction n with
  | zero =>
    intro f i resp _
    simp [List.range']
  | succ n ih =>
    intro f i resp h
    have hr : Retryable (resp i) := by simpa using h 0 (Nat.succ_pos n)
    have step := fetchGo_step_retry resp (f + n) i hr
    rw [show f + (n + 1) = (f + n) + 1 from rfl, step,
      ih f (i + 1) resp (fun m hm => by
        have h2 := h (m + 1) (Nat.succ_lt_succ hm)
        have h3 : i + (m + 1) = i + 1 + m := by omega
        rwa [h3] at h2)]
    have h4 : i + 1 + n = i + (n + 1) := by omega
    rw [List.range'_succ, h4]
    rfl

theorem fetchGo_doc_bound :
    ∀ (f i : Nat) (resp : Nat → Resp) (k : Nat),
      (fetchGo resp f i).1 = .doc k → k < i + f := by
  intro f
  induction f with
  | zero =>
    intro i resp k h
    simp [fetchGo] at h
  | succ f ih =>
    intro i resp k h
    rcases hr : resp i with _ | ⟨code, b⟩
    · rw [fetchGo_step_retry resp f i (.inl hr)] at h
      have := ih (i + 1) resp k h
      omega
    · by_cases h200 : code = 200
      · subst h200
        cases b with
        | true =>
          rw [fetchGo_step_doc resp f i hr] at h
          have : k = i := by simpa using h.symm
          omega
        | false =>
          rw [fetchGo_step_panic resp f i hr] at h
          simp at h
      · by_cases h509 : code = 509
        · subst h509
          rw [fetchGo_step_retry resp f i (.inr ⟨b, hr⟩)] at h
          have := ih (i + 1) resp k h
          omega
        · rw [fetchGo_step_fail resp f i code b hr h200 h509] at h
          simp at h

/-- C4.  Fetcher retry policy: with attempts `1..10`, if every attempt
before `k ≤ 10` was retryable (network error or status 509) and slept its
attempt number of seconds, then attempt `k` decides the run — a parsing
200 returns the document, a non-parsing 200 is fatal (panic, not retried),
and any other non-200, non-509 status fails immediately with no further
sleep; if all 10 attempts are retryable the fetch returns failure (nil
document) rather than crashing, after sleeping `1+2+…+10` seconds; and a
successful fetch never uses more than 10 attempts. -/
theorem getHttpDoc_spec :
    (∀ (resp : Nat → Resp) (k : Nat), 1 ≤ k → k ≤ 10 →
      (∀ i, 1 ≤ i → i < k → Retryable (resp i)) →
      ((resp k = .http 200 true →
        getHttpDocRun resp = (.doc k, List.range' 1 (k - 1))) ∧
       (resp k = .http 200 false →
        getHttpDocRun resp = (.parsePanic, List.range' 1 (k - 1))) ∧
       (∀ code b, resp k = .http code b → code ≠ 200 → code ≠ 509 →
        getHttpDocRun resp = (.failStatus code, List.range' 1 (k - 1))))) ∧
    (∀ resp : Nat → Resp, (∀ i, 1 ≤ i → i ≤ 10 → Retryable (resp i)) →
      getHttpDocRun resp = (.exhausted, List.range' 1 10)) ∧
    (∀ (resp : Nat → Resp) (k : Nat),
      (getHttpDocRun resp).1 = .doc k → k ≤ 10) := by
  refine ⟨?_, ?_, ?_⟩
  · intro resp k hk1 hk10 hpre
    have hsplit : (10 : Nat) = (11 - k) + (k - 1) := by omega
    have hpref := fetchGo_retryable_prefix (k - 1) (11 - k) 1 resp
      (fun m hm => hpre (1 + m) (by omega) (by omega))
    have hik : 1 + (k - 1) = k := by omega
    rw [hik] at hpref
    have hf : 11 - k = (10 - k) + 1 := by omega
    refine ⟨?_, ?_, ?_⟩
    · intro h
      rw [getHttpDocRun, hsplit, hpref, hf,
        fetchGo_step_doc resp (10 - k) k h]
      simp
    · intro h
      rw [getHttpDocRun, hsplit, hpref, hf,
        fetchGo_step_panic resp (10 - k) k h]
      simp
    · intro code b h h200 h509
      rw [getHttpDocRun, hsplit, hpref, hf,
        fetchGo_step_fail resp (10 - k) k code b h h200 h509]
      simp
  · intro resp h
    have hpref := fetchGo_retryable_prefix 10 0 1 resp
      (fun m hm => h (1 + m) (by omega) (by omega))
    rw [getHttpDocRun, show (10 : Nat) = 0 + 10 from rfl, hpref]
    simp [fetchGo]
  · intro resp k h
    have := fetchGo_doc_bound 10 1 resp k h
    omega

/-- C4 witness: a network error then a parsing 200 succeeds on attempt 2
after one 1-second sleep; a 404 fails immediately with no sleep; ten
network errors exhaust the retries. -/
theorem getHttpDoc_spec_witness :
    getHttpDocRun (fun i => if i = 1 then .netErr else .http 200 true) =
      (.doc 2, [1]) ∧
    getHttpDocRun (fun _ => .http 404 false) = (.failStatus 404, []) ∧
    getHttpDocRun (fun _ => .netErr) =
      (.exhausted, [1, 2, 3, 4, 5, 6, 7, 8, 9, 10]) := by
  refine ⟨?_, ?_, ?_⟩
  · have h := (getHttpDoc_spec.1
      (fun i => if i = 1 then .netErr else .http 200 true) 2
      (by omega) (by omega)
      (fun i h1 h2 => by
        have : i = 1 := by omega
        subst this
        exact .inl rfl)).1 (by simp)
    rw [h]
    rfl
  · have h := (getHttpDoc_spec.1 (fun _ => .http 404 false) 1
      (by omega) (by omega) (fun i h1 h2 => by omega)).2.2 404 false rfl
      (by omega) (by omega)
    rw [h]
    rfl
  · have h := getHttpDoc_spec.2.1 (fun _ => .netErr)
      (fun i _ _ => .inl rfl)
    rw [h]
    rfl

/-! ### Theorems for the opening-hours scan -/

theorem ohGo_none (f : Nat) (bs : List (Option OHMatch))
    (oh : List String) : ohGo f (none :: bs) oh = some oh := by
  cases f <;> rfl

theorem ohGo_take :
    ∀ (f : Nat) (bs : List (Option OHMatch)) (oh : List String),
      ohGo f bs oh = ohGo f (bs.take f) oh := by
  intro f
  induction f with
  | zero => intro bs oh; rfl
  | succ f ih =>
    intro bs oh
    cases bs with
    | nil => rfl
    | cons b rest =>
      cases b with
      | none => rw [List.take_succ_cons, ohGo_none, ohGo_none]
      | some m =>
        rw [List.take_succ_cons]
        show ohGo (f + 1) (some m :: rest) oh =
          ohGo (f + 1) (some m :: rest.take f) oh
        unfold ohGo
        split
        · split
          · rfl
          · exact ih rest _
        · split
          · rfl
          · exact ih rest _

theorem setRange_length (oh : List String) (ds de : Nat) (v : String) :
    (setRange oh ds de v).length = oh.length := by
  simp [setRange]

theorem setRange_getD (oh : List String) (ds de : Nat) (v : String)
    (j : Nat) (hj : j < oh.length) :
    (setRange oh ds de v).getD j "" =
      if ds ≤ j ∧ j ≤ de then v else oh.getD j "" := by
  rw [setRange, List.getD_eq_getElem?_getD, List.getD_eq_getElem?_getD,
    List.getElem?_map, List.getElem?_enum]
  rw [List.getElem?_eq_getElem hj]
  rfl

/-- C6.  Weekday-range expansion: a matched block with resolved start `d1`
and resolved end `d2` (defaulting to `d1` when the optional capture is
empty) panics when `d2 < d1`; otherwise the assignment writes the same
string into every slot `d1..d2` inclusive and leaves all other slots
untouched; scanning stops at the first non-matching block, is bounded by 7
iterations, and on a single block "Mo"–"Fr" with hours 08:00/16:00 fills
slots 0–4 with `"08:00-16:00"` leaving slots 5 and 6 empty. -/
theorem getMetadata_openingHours_spec :
    (∀ (m : OHMatch) (rest : List (Option OHMatch)),
      (if m.dayEnd = "" then resolveDay m.dayStart
        else resolveDay m.dayEnd) < resolveDay m.dayStart →
      expandOpeningHours (some m :: rest) = none) ∧
    (∀ (oh : List String) (ds de : Nat) (v : String),
      (setRange oh ds de v).length = oh.length ∧
      (∀ j, j < oh.length → (setRange oh ds de v).getD j "" =
        if ds ≤ j ∧ j ≤ de then v else oh.getD j "")) ∧
    (∀ (f : Nat) (bs : List (Option OHMatch)) (oh : List String),
      ohGo f (none :: bs) oh = some oh) ∧
    (∀ bs : List (Option OHMatch),
      expandOpeningHours bs = expandOpeningHours (bs.take 7)) ∧
    expandOpeningHours [some ⟨"Mo", "Fr", "08:00", "16:00"⟩] =
      some ["08:00-16:00", "08:00-16:00", "08:00-16:00", "08:00-16:00",
        "08:00-16:00", "", ""] := by
  refine ⟨?_, ?_, ?_, ?_, ?_⟩
  · intro m rest h
    unfold expandOpeningHours ohGo
    rw [if_pos h]
  · intro oh ds de v
    exact ⟨setRange_length oh ds de v, fun j hj => setRange_getD _ _ _ _ j hj⟩
  · exact fun f bs oh => ohGo_none f bs oh
  · intro bs
    unfold expandOpeningHours
    exact ohGo_take 7 bs _
  · decide

/-- C6 witness: a block whose end day resolves before its start day
panics, and a filled slot takes the joined time string. -/
theorem getMetadata_openingHours_spec_witness :
    expandOpeningHours [some ⟨"Fr", "Mo", "08:00", "16:00"⟩] = none ∧
    (setRange ["", "", "", "", "", "", ""] 0 4 "08:00-16:00").getD 2 ""
      = "08:00-16:00" := by
  constructor
  · exact getMetadata_openingHours_spec.1 ⟨"Fr", "Mo", "08:00", "16:00"⟩ []
      (by decide)
  · have h := (getMetadata_openingHours_spec.2.1
      ["", "", "", "", "", "", ""] 0 4 "08:00-16:00").2 2 (by decide)
    rw [h]
    rfl

/-! ### Theorems for identifier persistence -/

theorem bwWriteGo_emptybuf (f : Nat) (fi p : List Char) (hf : 1 ≤ f) :
    (bwWriteGo f ⟨fi, []⟩ p).file ++ (bwWriteGo f ⟨fi, []⟩ p).buf =
      fi ++ p := by
  match f, hf with
  | f + 1, _ =>
    unfold bwWriteGo
    split
    · simp
    · split
      · simp
      · rename_i h1 h2
        exact absurd rfl h2

theorem bwWriteGo_content (f : Nat) (w : BufWriter) (p : List Char)
    (hf : 2 ≤ f) :
    (bwWriteGo f w p).file ++ (bwWriteGo f w p).buf =
      w.file ++ w.buf ++ p := by
  match f, hf with
  | f + 2, _ =>
    show (bwWriteGo (f + 1 + 1) w p).file ++ _ = _
    unfold bwWriteGo
    split
    · simp
    · split
      · rename_i h1 h2
        have hb : w.buf = [] := List.length_eq_zero.mp h2
        simp [hb]
      · rename_i h1 h2
        rw [bwWriteGo_emptybuf (f + 1) _ _ (by omega)]
        simp [List.take_append_drop]

theorem bwWrite_content (w : BufWriter) (p : List Char) :
    (bwWrite w p).file ++ (bwWrite w p).buf = w.file ++ w.buf ++ p :=
  bwWriteGo_content (p.length + 2) w p (by omega)

theorem bwWrite_small (w : BufWriter) (p : List Char)
    (h : w.buf.length + p.length ≤ bufSize) :
    bwWrite w p = ⟨w.file, w.buf ++ p⟩ := by
  unfold bwWrite bwWriteGo
  rw [if_pos (by omega)]

theorem bwWrite_direct (fi p : List Char) (h : bufSize < p.length) :
    bwWrite ⟨fi, []⟩ p = ⟨fi ++ p, []⟩ := by
  unfold bwWrite bwWriteGo
  split
  · rename_i h1
    exact absurd h1 (by simpa using Nat.not_le.mpr h)
  · split
    · rfl
    · rename_i h2
      exact absurd rfl h2

theorem saveIdsGo_ok :
    ∀ (ids : List (List Char)) (w : BufWriter),
      (∀ idc ∈ ids, '\n' ∉ idc) →
      saveIdsGo ids w = (true, w.file ++ w.buf ++
        (ids.map (fun idc => idc ++ ['\n'])).flatten) := by
  intro ids
  induction ids with
  | nil =>
    intro w _
    simp [saveIdsGo, bwFlush]
  | cons idc rest ih =>
    intro w h
    have hni : '\n' ∉ idc := h idc (List.mem_cons_self idc rest)
    rw [saveIdsGo, if_neg hni,
      ih (bwWrite w (idc ++ ['\n'])) (fun x hx => h x (List.mem_cons_of_mem _ hx)),
      bwWrite_content]
    simp

theorem saveIdsGo_err :
    ∀ (pre : List (List Char)) (w : BufWriter) (bad : List Char)
      (rest : List (List Char)),
      (∀ idc ∈ pre, '\n' ∉ idc) → '\n' ∈ bad →
      saveIdsGo (pre ++ bad :: rest) w =
        (false, (writeAll w pre).file) := by
  intro pre
  induction pre with
  | nil =>
    intro w bad rest _ hbad
    rw [List.nil_append, saveIdsGo, if_pos hbad]
    rfl
  | cons idc pre ih =>
    intro w bad rest h hbad
    have hni : '\n' ∉ idc := h idc (List.mem_cons_self idc pre)
    rw [List.cons_append, saveIdsGo, if_neg hni,
      ih (bwWrite w (idc ++ ['\n'])) bad rest
        (fun x hx => h x (List.mem_cons_of_mem _ hx)) hbad]
    rfl

theorem writeAll_small :
    ∀ (pre : List (List Char)) (w : BufWriter),
      w.buf.length + (pre.map (fun idc => idc ++ ['\n'])).flatten.length ≤
        bufSize →
      writeAll w pre =
        ⟨w.file, w.buf ++ (pre.map (fun idc => idc ++ ['\n'])).flatten⟩ := by
  intro pre
  induction pre with
  | nil =>
    intro w _
    simp [writeAll]
  | cons idc pre ih =>
    intro w h
    simp only [List.map_cons, List.flatten_cons, List.length_append] at h
    rw [writeAll, List.foldl_cons,
      bwWrite_small w (idc ++ ['\n']) (by simp at h ⊢; omega)]
    have h2 := ih ⟨w.file, w.buf ++ (idc ++ ['\n'])⟩
      (by simp at h ⊢; omega)
    rw [writeAll] at h2
    rw [h2]
    simp

/-- C9 counterexample: with a 4096-byte identifier followed by a
newline-containing identifier, saving fails with the validation error but
the first identifier's line is already visible in the (truncated) file —
the 4097-byte `Fprintln` exceeds the 4096-byte `bufio` buffer and is
written directly to the file before the bad identifier is examined.  So
"no partial file contents are persisted on error" is false. -/
theorem saveIds_not_atomic :
    (saveIds [] [List.replicate 4096 'a', ['b', '\n', 'c']]).1 = false ∧
    (saveIds [] [List.replicate 4096 'a', ['b', '\n', 'c']]).2 =
      List.replicate 4096 'a' ++ ['\n'] ∧
    (saveIds [] [List.replicate 4096 'a', ['b', '\n', 'c']]).2 ≠ [] := by
  have hpre : ∀ idc ∈ [List.replicate 4096 'a'], '\n' ∉ idc := by
    intro idc hm
    rw [List.mem_singleton] at hm
    subst hm
    intro hmem
    exact absurd (List.eq_of_mem_replicate hmem) (by decide)
  have h := saveIdsGo_err [List.replicate 4096 'a'] ⟨[], []⟩
    ['b', '\n', 'c'] [] hpre (by decide)
  have hw : writeAll ⟨[], []⟩ [List.replicate 4096 'a'] =
      ⟨List.replicate 4096 'a' ++ ['\n'], []⟩ := by
    rw [writeAll, List.foldl_cons, List.foldl_nil,
      bwWrite_direct [] (List.replicate 4096 'a' ++ ['\n'])
        (by rw [List.length_append, List.length_replicate]
            norm_num [bufSize])]
    rw [List.nil_append]
  have hs : saveIds [] [List.replicate 4096 'a', ['b', '\n', 'c']] =
      (false, List.replicate 4096 'a' ++ ['\n']) := by
    rw [saveIds]
    rw [show [List.replicate 4096 'a', ['b', '\n', 'c']] =
      [List.replicate 4096 'a'] ++ ['b', '\n', 'c'] :: [] from rfl, h, hw]
  rw [hs]
  refine ⟨rfl, rfl, ?_⟩
  intro hnil
  have h2 := congrArg List.length hnil
  rw [List.length_append, List.length_replicate, List.length_nil] at h2
  omega

/-- C9 (amended).  Saving writes one identifier per line,
newline-delimited, and the resulting file contents depend only on the
identifier list (so saving the same list twice yields the same contents —
`os.Create` truncates the destination first); an identifier containing a
newline makes saving fail with the input-validation error before that
identifier is written, and as long as the bytes written before the
offending identifier fit in the 4096-byte `bufio` buffer the failed save
leaves the (truncated) file empty; bytes beyond the buffer size may
however already be flushed (see the counterexample). -/
theorem saveIds_spec :
    (∀ (old : List Char) (ids : List (List Char)),
      (∀ idc ∈ ids, '\n' ∉ idc) →
      saveIds old ids =
        (true, (ids.map (fun idc => idc ++ ['\n'])).flatten)) ∧
    (∀ (old old2 : List Char) (ids : List (List Char)),
      saveIds old ids = saveIds old2 ids) ∧
    (∀ (old : List Char) (pre rest : List (List Char)) (bad : List Char),
      (∀ idc ∈ pre, '\n' ∉ idc) → '\n' ∈ bad →
      (saveIds old (pre ++ bad :: rest)).1 = false ∧
      ((pre.map (fun idc => idc ++ ['\n'])).flatten.length ≤ bufSize →
        (saveIds old (pre ++ bad :: rest)).2 = [])) := by
  refine ⟨?_, ?_, ?_⟩
  · intro old ids h
    rw [saveIds, saveIdsGo_ok ids ⟨[], []⟩ h]
    rfl
  · intro old old2 ids
    rfl
  · intro old pre rest bad hpre hbad
    rw [saveIds, saveIdsGo_err pre ⟨[], []⟩ bad rest hpre hbad]
    refine ⟨rfl, ?_⟩
    intro hsize
    rw [writeAll_small pre ⟨[], []⟩ (by simpa using hsize)]

/-- C9 witness: a successful small save and a failing small save, at
concrete inputs. -/
theorem saveIds_spec_witness :
    saveIds [] [['a'], ['b', 'c']] = (true, ['a', '\n', 'b', 'c', '\n']) ∧
    (saveIds [] [['a'], ['x', '\n']]).1 = false ∧
    (saveIds [] [['a'], ['x', '\n']]).2 = [] := by
  refine ⟨?_, ?_, ?_⟩
  · rw [saveIds_spec.1 [] [['a'], ['b', 'c']] (by decide)]
    rfl
  · exact ((saveIds_spec.2.2 [] [['a']] [] ['x', '\n'] (by decide)
      (by decide)).1)
  · exact ((saveIds_spec.2.2 [] [['a']] [] ['x', '\n'] (by decide)
      (by decide)).2 (by decide))

end OMPB
